import Mathlib

/-!
Verification development for the JSONL label-statistics program
(`mars_label_stat.go`).  The program scans a directory tree for
`.jsonl`/`.json` files, extracts the value of one configured field from
every line, and aggregates a frequency table plus a deterministically
ranked list.

The Go code is shallowly embedded here:

* `fastExtractLabel` mirrors the heuristic substring scanner
  (source lines 68-135); it is built on `fastExtractCore`, which is
  additionally instantiated with a configurable key as `specFastExtract`
  for comparison with the specified behaviour.
* The per-line loop of `processFile` (source lines 227-264) is
  `scanStep` / `scanLines`; the whole of `processFile` (lines 213-271)
  is `processFile`, with the file system abstracted by `FileData`
  (the list of lines the scanner yields and the optional open/read
  failure).
* `collectJSONLFiles` (lines 288-307) is modelled over the sequence of
  walk events `filepath.Walk` feeds to the callback.
* The aggregation loop of `countLabels` (lines 353-368) is `aggStep` /
  `aggregate`; the ranking (lines 372-387) is `sortTable`; the whole of
  `countLabels` (lines 310-400) is `countLabels`.  Timing fields
  (`ProcessingTime`, `LinesPerSecond`) are omitted from the model: they
  are wall-clock floating-point data with no algorithmic content.

Go `map[string]int64` values are modelled as association lists
(`CountMap`) whose key lists stay duplicate-free; `int64` is modelled as
`Int` (no claim concerns 64-bit overflow).  Strings are treated as rune
sequences; the byte-level scans of the Go code coincide with rune-level
scans because every character the scanner compares against is ASCII and
UTF-8 continuation bytes never collide with ASCII.
-/

/-- The double-quote character. -/
def dq : Char := Char.ofNat 34

/-- The single-quote character. -/
def sqc : Char := Char.ofNat 39

/-- The backslash character. -/
def bsl : Char := Char.ofNat 92

/-- Whitespace test of the skip loop at source line 78: exactly space,
tab and newline. -/
def isKeyWs (c : Char) : Bool := c.toNat = 32 || c.toNat = 9 || c.toNat = 10

/-- ASCII fragment of Go `unicode.IsSpace`, used by `strings.TrimSpace`
at source line 126 (non-ASCII white space is not modelled). -/
def goIsSpace (c : Char) : Bool :=
  c.toNat = 9 || c.toNat = 10 || c.toNat = 11 || c.toNat = 12 || c.toNat = 13 || c.toNat = 32

/-- `strings.Index`: position of the first occurrence of `pat`
(source line 71). -/
def indexOfSub (pat : List Char) : List Char → Option Nat
  | [] => if pat.isPrefixOf ([] : List Char) then some 0 else none
  | c :: t =>
    if pat.isPrefixOf (c :: t) then some 0
    else (indexOfSub pat t).map (· + 1)

/-- The whitespace-skipping loop after the key pattern
(source lines 78-80). -/
def skipKeyWs : List Char → List Char
  | [] => []
  | c :: t => if isKeyWs c then skipKeyWs t else c :: t

/-- The quoted-value scan (source lines 91-103 and 107-117): collect
characters until the closing quote `q`; a backslash copies itself and
the next character without interpreting the escape.  `none` when the
closing quote is missing (the Go loop then falls through to the
unquoted scan). -/
def scanQuoted (q : Char) : List Char → Option (List Char)
  | [] => none
  | c :: t =>
    if c = q then some []
    else if c = bsl then
      match t with
      | [] => none
      | c2 :: t2 => (scanQuoted q t2).map (fun r => c :: c2 :: r)
    else (scanQuoted q t).map (fun r => c :: r)

/-- The unquoted-value scan bound (source lines 121-124): read until a
comma, closing brace or newline. -/
def takeValue : List Char → List Char
  | [] => []
  | c :: t => if c = ',' || c = '}' || c.toNat = 10 then [] else c :: takeValue t

/-- `strings.TrimSpace` (source line 126), ASCII white space. -/
def trimSpace (l : List Char) : List Char :=
  ((l.dropWhile goIsSpace).reverse.dropWhile goIsSpace).reverse

/-- Strip one layer of surrounding double or single quotes
(source lines 129-132). -/
def stripQuotes (v : List Char) : List Char :=
  if 2 ≤ v.length ∧
      ((v.head? = some dq ∧ v.getLast? = some dq) ∨
        (v.head? = some sqc ∧ v.getLast? = some sqc)) then
    (v.drop 1).dropLast
  else v

/-- The fallback branch of the fast extractor (source lines 120-134):
scan from the value start until `,`, `}` or newline, trim white space,
strip one layer of quotes. -/
def unquotedScan (cs : List Char) : String :=
  String.mk (stripQuotes (trimSpace (takeValue cs)))

/-- Body of `fastExtractLabel` (source lines 68-135) with the searched
pattern abstracted: locate `pat`, skip white space, then parse the value
by its first character.  An unterminated quoted value falls through to
the unquoted scan, exactly as the Go control flow does. -/
def fastExtractCore (pat : List Char) (chars : List Char) : String :=
  match indexOfSub pat chars with
  | none => ""
  | some pos =>
    let rest := skipKeyWs (chars.drop (pos + pat.length))
    match rest with
    | [] => ""
    | c :: t =>
      if c = dq then
        match scanQuoted dq t with
        | some content => String.mk content
        | none => unquotedScan rest
      else if c = sqc then
        match scanQuoted sqc t with
        | some content => String.mk content
        | none => unquotedScan rest
      else unquotedScan rest

/-- `fastExtractLabel` (source lines 68-135).  Note that the searched
pattern is the fixed literal `"label":` (source line 70); the function
receives no key argument. -/
def fastExtractLabel (line : String) : String :=
  fastExtractCore ("\"label\":".toList) line.toList

/-- The fast extractor as §4.2 of the specification describes it: the
same scanning algorithm, but searching for the pattern built from the
configured key, `"<key>":`.  Kept separate from `fastExtractLabel` so
the two can be compared. -/
def specFastExtract (key line : String) : String :=
  fastExtractCore (dq :: (key.toList ++ [dq, ':'])) line.toList

/-- Generic JSON values as far as the full-parse type switch
(source lines 245-256) distinguishes them.  Numeric values travel
through Go `float64` and `fmt.Sprintf` with the verb `%g`; that
floating-point rendering is not modelled, so numbers fall under
`other`, which carries its Go textual rendering as data. -/
inductive JsonValue where
  | str (s : String)
  | boolVal (b : Bool)
  | other (rendering : String)
deriving DecidableEq, Repr

/-- The type switch of source lines 245-256 (string passes through,
`bool` renders via the verb `%v` as `true`/`false`, everything else by
its recorded rendering). -/
def renderValue : JsonValue → String
  | JsonValue.str s => s
  | JsonValue.boolVal b => if b then "true" else "false"
  | JsonValue.other r => r

/-- The full-parse branch of the line loop (source lines 238-257).
`json.Unmarshal` is abstracted as a `parse` function producing the
decoded object (an association list standing for the Go map) or `none`
on malformed input.  A failed parse or a missing key leaves the label
empty, which the loop then skips. -/
def fullExtractLabel (parse : String → Option (List (String × JsonValue)))
    (labelKey line : String) : String :=
  match parse line with
  | none => ""
  | some data =>
    match data.lookup labelKey with
    | none => ""
    | some v => renderValue v

/-- The label computed for one line (source lines 233-258): the fast
path calls `fastExtractLabel line` — passing no key — and the full path
calls the JSON lookup with the configured key. -/
def extractLine (fastParse : Bool)
    (parse : String → Option (List (String × JsonValue)))
    (labelKey line : String) : String :=
  if fastParse then fastExtractLabel line else fullExtractLabel parse labelKey line

/-- Model of Go `map[string]int64`: an association list whose key list
is kept duplicate-free by the operations below. -/
abbrev CountMap : Type := List (String × Int)

/-- Map read with the zero default of Go (`counts[label]` on a missing
key reads as `0`). -/
def lookupCount : CountMap → String → Int
  | [], _ => 0
  | (k', v) :: rest, k => if k' = k then v else lookupCount rest k

/-- `counts[label] += n`: update the existing entry or add a new one. -/
def bump : CountMap → String → Int → CountMap
  | [], k, n => [(k, n)]
  | (k', c) :: rest, k, n =>
    if k' = k then (k', c + n) :: rest else (k', c) :: bump rest k n

/-- Keys of a count map. -/
def keysOf (m : CountMap) : List String := m.map Prod.fst

/-- Sum of all counts of a map. -/
def tableSum (m : CountMap) : Int := (m.map Prod.snd).sum

/-- Body of the scan loop of `processFile` (source lines 227-264): skip
empty lines, extract the label, and when it is non-empty bump its count
and the line counter. -/
def scanStep (ext : String → String) (acc : CountMap × Int) (line : String) :
    CountMap × Int :=
  if line = "" then acc
  else
    let label := ext line
    if label = "" then acc else (bump acc.1 label 1, acc.2 + 1)

/-- The whole scan loop: fold `scanStep` over the lines the scanner
yields, starting from the empty map and counter `0`
(source lines 220-264). -/
def scanLines (ext : String → String) (ls : List String) : CountMap × Int :=
  ls.foldl (scanStep ext) ([], 0)

/-- What `processFile` observes of one file: either the open fails, or
the scanner yields a list of lines followed by an optional read error
(`scanner.Err()`; an over-long line surfaces here too). -/
inductive FileData where
  | openFail (msg : String)
  | content (ls : List String) (readErr : Option String)
deriving DecidableEq

/-- `WorkerResult` (source lines 60-65). -/
structure WorkerResult where
  counts : CountMap
  lines : Int
  error : Option String
deriving DecidableEq

/-- `processFile` (source lines 213-271): on open failure return the
empty map, zero lines and the error; otherwise scan the lines and
return the accumulated counts together with the read error, if any,
formatted with the file path as at source lines 216 and 267. -/
def processFile (ext : String → String) (filePath : String) (fd : FileData) :
    WorkerResult :=
  match fd with
  | FileData.openFail msg => ⟨[], 0, some ("打开文件失败: " ++ msg)⟩
  | FileData.content ls readErr =>
    let s := scanLines ext ls
    ⟨s.1, s.2, readErr.map (fun m => "读取文件失败[" ++ filePath ++ "]: " ++ m)⟩

/-- One call `filepath.Walk` makes to the callback of
`collectJSONLFiles` (source lines 291-304): either a visited entry
(path, base name, directory flag) or a traversal failure.  Base names
produced by `info.Name()` contain no path separator. -/
inductive WalkEvent where
  | entry (path name : String) (isDir : Bool)
  | failure (path msg : String)
deriving DecidableEq

/-- `filepath.Ext` on a base name: the suffix beginning at the final
dot, empty when there is no dot. -/
def fileExt (name : String) : String :=
  let rev := name.toList.reverse
  if rev.contains '.' then String.mk ('.' :: (rev.takeWhile (· ≠ '.')).reverse)
  else ""

/-- ASCII lower-casing of `strings.ToLower` (extensions are ASCII). -/
def toLowerStr (s : String) : String := String.mk (s.toList.map Char.toLower)

/-- The selection test of source lines 296-300: not a directory, and the
lower-cased extension is `.jsonl` or `.json`. -/
def matchExt (name : String) : Bool :=
  toLowerStr (fileExt name) = ".jsonl" || toLowerStr (fileExt name) = ".json"

/-- `collectJSONLFiles` (source lines 288-307) over the walk event
sequence: accumulate matching non-directory paths; the first traversal
failure makes the callback return the error, which aborts the walk and
is returned alongside the files collected so far. -/
def collectJSONLFiles : List WalkEvent → List String × Option String
  | [] => ([], none)
  | WalkEvent.entry p nm isDir :: rest =>
    let here := if !isDir && matchExt nm then [p] else []
    let r := collectJSONLFiles rest
    (here ++ r.1, r.2)
  | WalkEvent.failure _ msg :: _ => ([], some msg)

/-- State of the aggregation loop (source lines 353-355). -/
structure AggState where
  table : CountMap
  totalLines : Int
  errors : List String
deriving DecidableEq

/-- `for label, count := range result.Counts` merged into the global
table (source lines 363-365). -/
def mergeCounts (t : CountMap) (c : CountMap) : CountMap :=
  c.foldl (fun t' p => bump t' p.1 p.2) t

/-- One iteration of the result loop (source lines 357-368): a result
carrying an error only appends the error message — the `continue` at
source line 360 drops its counts and line total; an error-free result
is merged into the table and line total. -/
def aggStep (acc : AggState) (r : WorkerResult) : AggState :=
  match r.error with
  | some e => { acc with errors := acc.errors ++ [e] }
  | none =>
    { table := mergeCounts acc.table r.counts
      totalLines := acc.totalLines + r.lines
      errors := acc.errors }

/-- The whole result-collection loop (source lines 352-368). -/
def aggregate (rs : List WorkerResult) : AggState :=
  rs.foldl aggStep ⟨[], 0, []⟩

/-- `LabelCount` (source lines 49-52). -/
structure LabelCount where
  label : String
  count : Int
deriving DecidableEq, Repr

/-- Lexicographic comparison of rune sequences, the model of Go's
built-in byte-wise string order (`<` on `string`); on UTF-8 data the
byte-wise and rune-wise lexicographic orders coincide. -/
def charListLe : List Char → List Char → Bool
  | [], _ => true
  | _ :: _, [] => false
  | a :: as, b :: bs =>
    if a < b then true
    else if b < a then false
    else charListLe as bs

/-- The ordering of `sort.Slice` at source lines 382-387 in non-strict
form: `a` may precede `b` iff `a` has the larger count, or equal counts
and `a.label` is lexicographically at most `b.label`. -/
def rankLE (a b : LabelCount) : Prop :=
  b.count < a.count ∨ (a.count = b.count ∧ charListLe a.label.toList b.label.toList = true)

instance : DecidableRel rankLE := fun a b =>
  inferInstanceAs (Decidable
    (b.count < a.count ∨ (a.count = b.count ∧ charListLe a.label.toList b.label.toList = true)))

/-- The ranking step of source lines 373-387: list the table entries and
sort them by count descending, ties by label ascending.  `sort.Slice`
is modelled by insertion sort with the same comparator; because the
comparator is total, transitive and antisymmetric, the sorted result is
the unique sorted permutation, independent of sorting algorithm and of
map iteration order (proved below). -/
def sortTable (t : CountMap) : List LabelCount :=
  List.insertionSort rankLE (t.map (fun p => ⟨p.1, p.2⟩))

/-- `Result` (source lines 36-46), without the wall-clock timing
fields. -/
structure Result where
  directory : String
  filesProcessed : Nat
  totalLines : Int
  uniqueLabels : Nat
  labelCounts : CountMap
  sortedLabels : List LabelCount
  errors : List String
deriving DecidableEq

/-- `countLabels` (source lines 310-400): collect the files; abort on a
walk error or on an empty file list; otherwise process every file,
aggregate, rank and build the result.  The worker pool is modelled by
processing the files in dispatch order — order-independence of the
aggregation is proved separately. -/
def countLabels (ext : String → String) (fileData : String → FileData)
    (directory : String) (evs : List WalkEvent) : Except String Result :=
  let files := (collectJSONLFiles evs).1
  match (collectJSONLFiles evs).2 with
  | some e => Except.error ("收集文件失败: " ++ e)
  | none =>
    if files = [] then Except.error "未找到JSONL或JSON文件"
    else
      let results := files.map (fun f => processFile ext f (fileData f))
      let a := aggregate results
      Except.ok
        { directory := directory
          filesProcessed := files.length
          totalLines := a.totalLines
          uniqueLabels := a.table.length
          labelCounts := a.table
          sortedLabels := sortTable a.table
          errors := a.errors }

/-- A line counts iff it is non-empty and the extractor yields a
non-empty label. -/
def countedLine (ext : String → String) (l : String) : Bool :=
  !(l == "") && !(ext l == "")

/-! ### Lemmas about `bump` -/

theorem bump_cons_eq (a : String) (c : Int) (rest : CountMap) (k : String) (n : Int)
    (h : a = k) : bump ((a, c) :: rest) k n = (a, c + n) :: rest := by
  simp [bump, h]

theorem bump_cons_ne (a : String) (c : Int) (rest : CountMap) (k : String) (n : Int)
    (h : ¬a = k) : bump ((a, c) :: rest) k n = (a, c) :: bump rest k n := by
  simp [bump, h]

theorem lookupCount_bump (m : CountMap) (k : String) (n : Int) (k' : String) :
    lookupCount (bump m k n) k' = lookupCount m k' + (if k = k' then n else 0) := by
  induction m with
  | nil =>
    by_cases h : k = k' <;> simp [bump, lookupCount, h]
  | cons p rest ih =>
    obtain ⟨a, c⟩ := p
    by_cases hak : a = k
    · rw [bump_cons_eq a c rest k n hak]
      by_cases hk' : a = k'
      · rw [hak] at hk'
        simp [lookupCount, hak, hk']
      · have hkk' : ¬k = k' := fun h => hk' (hak.trans h)
        simp [lookupCount, hak, hk', hkk']
    · rw [bump_cons_ne a c rest k n hak]
      by_cases hk' : a = k'
      · have hkk' : ¬k = k' := fun h => hak (hk'.trans h.symm)
        simp [lookupCount, hk', hkk']
      · simp [lookupCount, hk', ih]

theorem mem_keysOf_bump (m : CountMap) (k : String) (n : Int) (k' : String) :
    k' ∈ keysOf (bump m k n) ↔ k' = k ∨ k' ∈ keysOf m := by
  induction m with
  | nil => simp [bump, keysOf]
  | cons p rest ih =>
    obtain ⟨a, c⟩ := p
    by_cases hak : a = k
    · rw [bump_cons_eq a c rest k n hak]
      subst hak
      show k' ∈ a :: keysOf rest ↔ k' = a ∨ k' ∈ a :: keysOf rest
      simp only [List.mem_cons]
      tauto
    · rw [bump_cons_ne a c rest k n hak]
      show k' ∈ a :: keysOf (bump rest k n) ↔ k' = k ∨ k' ∈ a :: keysOf rest
      simp only [List.mem_cons, ih]
      tauto

theorem nodup_keysOf_bump (m : CountMap) (k : String) (n : Int)
    (h : (keysOf m).Nodup) : (keysOf (bump m k n)).Nodup := by
  induction m with
  | nil => simp [bump, keysOf]
  | cons p rest ih =>
    obtain ⟨a, c⟩ := p
    have hcons : keysOf ((a, c) :: rest) = a :: keysOf rest := rfl
    rw [hcons, List.nodup_cons] at h
    by_cases hak : a = k
    · rw [bump_cons_eq a c rest k n hak]
      show (a :: keysOf rest).Nodup
      rw [List.nodup_cons]
      exact h
    · rw [bump_cons_ne a c rest k n hak]
      show (a :: keysOf (bump rest k n)).Nodup
      rw [List.nodup_cons]
      refine ⟨fun hmem => ?_, ih h.2⟩
      rcases (mem_keysOf_bump rest k n a).mp hmem with h1 | h2
      · exact hak h1
      · exact h.1 h2

theorem tableSum_bump (m : CountMap) (k : String) (n : Int) :
    tableSum (bump m k n) = tableSum m + n := by
  induction m with
  | nil => simp [bump, tableSum]
  | cons p rest ih =>
    obtain ⟨a, c⟩ := p
    by_cases hak : a = k <;> simp [bump, tableSum, hak] at ih ⊢ <;> omega

/-! ### Lemmas about the scan loop of `processFile` -/

theorem scanLoop_snd (ext : String → String) (ls : List String) :
    ∀ acc : CountMap × Int,
      (ls.foldl (scanStep ext) acc).2
        = acc.2 + ((ls.filter (countedLine ext)).length : Int) := by
  induction ls with
  | nil => intro acc; simp
  | cons l rest ih =>
    intro acc
    by_cases h1 : l = ""
    · simp [scanStep, countedLine, h1, ih]
    · by_cases h2 : ext l = ""
      · simp [scanStep, countedLine, h1, h2, ih]
      · simp [scanStep, countedLine, h1, h2, ih]
        omega

theorem scanLoop_tableSum (ext : String → String) (ls : List String) :
    ∀ acc : CountMap × Int,
      tableSum (ls.foldl (scanStep ext) acc).1
        = tableSum acc.1 + ((ls.filter (countedLine ext)).length : Int) := by
  induction ls with
  | nil => intro acc; simp
  | cons l rest ih =>
    intro acc
    by_cases h1 : l = ""
    · simp [scanStep, countedLine, h1, ih]
    · by_cases h2 : ext l = ""
      · simp [scanStep, countedLine, h1, h2, ih]
      · simp [scanStep, countedLine, h1, h2, ih, tableSum_bump]
        omega

theorem scanLoop_keys_mem (ext : String → String) (ls : List String) (k : String) :
    ∀ acc : CountMap × Int,
      (k ∈ keysOf (ls.foldl (scanStep ext) acc).1
        ↔ k ∈ keysOf acc.1 ∨ k ∈ (ls.filter (countedLine ext)).map ext) := by
  induction ls with
  | nil => intro acc; simp
  | cons l rest ih =>
    intro acc
    by_cases h1 : l = ""
    · simp [scanStep, countedLine, h1, ih]
    · by_cases h2 : ext l = ""
      · simp [scanStep, countedLine, h1, h2, ih]
      · simp [scanStep, countedLine, h1, h2, ih, mem_keysOf_bump]
        tauto

theorem scanLoop_keys_nodup (ext : String → String) (ls : List String) :
    ∀ acc : CountMap × Int, (keysOf acc.1).Nodup
      → (keysOf (ls.foldl (scanStep ext) acc).1).Nodup := by
  induction ls with
  | nil => intro acc h; simpa using h
  | cons l rest ih =>
    intro acc h
    by_cases h1 : l = ""
    · simpa [scanStep, h1] using ih acc h
    · by_cases h2 : ext l = ""
      · simpa [scanStep, h1, h2] using ih acc h
      · refine ih _ ?_
        simpa [scanStep, h1, h2] using nodup_keysOf_bump acc.1 (ext l) 1 h

theorem tableSum_scanLines (ext : String → String) (ls : List String) :
    tableSum (scanLines ext ls).1 = (scanLines ext ls).2 := by
  have h1 := scanLoop_tableSum ext ls ([], 0)
  have h2 := scanLoop_snd ext ls ([], 0)
  unfold scanLines
  rw [h1, h2]
  simp [tableSum]

/-! ### Lemmas about `mergeCounts` -/

/-- Total weight the entry list `c` carries for the key `k`. -/
def entryWeight (c : CountMap) (k : String) : Int :=
  (c.map (fun p => if p.1 = k then p.2 else 0)).sum

theorem lookupCount_mergeCounts (c : CountMap) (k : String) :
    ∀ t : CountMap, lookupCount (mergeCounts t c) k = lookupCount t k + entryWeight c k := by
  induction c with
  | nil => intro t; simp [mergeCounts, entryWeight]
  | cons p rest ih =>
    intro t
    obtain ⟨a, n⟩ := p
    have hstep : mergeCounts t ((a, n) :: rest) = mergeCounts (bump t a n) rest := rfl
    rw [hstep, ih, lookupCount_bump]
    by_cases hak : a = k <;> simp [entryWeight, hak]
    all_goals omega

theorem mem_keysOf_mergeCounts (c : CountMap) (k : String) :
    ∀ t : CountMap, (k ∈ keysOf (mergeCounts t c) ↔ k ∈ keysOf t ∨ k ∈ keysOf c) := by
  induction c with
  | nil => intro t; simp [mergeCounts, keysOf]
  | cons p rest ih =>
    intro t
    obtain ⟨a, n⟩ := p
    have hstep : mergeCounts t ((a, n) :: rest) = mergeCounts (bump t a n) rest := rfl
    have hcons : keysOf ((a, n) :: rest) = a :: keysOf rest := rfl
    rw [hstep, ih, hcons, mem_keysOf_bump]
    simp only [List.mem_cons]
    tauto

theorem nodup_keysOf_mergeCounts (c : CountMap) :
    ∀ t : CountMap, (keysOf t).Nodup → (keysOf (mergeCounts t c)).Nodup := by
  induction c with
  | nil => intro t h; exact h
  | cons p rest ih =>
    intro t h
    obtain ⟨a, n⟩ := p
    have hstep : mergeCounts t ((a, n) :: rest) = mergeCounts (bump t a n) rest := rfl
    rw [hstep]
    exact ih _ (nodup_keysOf_bump t a n h)

theorem tableSum_mergeCounts (c : CountMap) :
    ∀ t : CountMap, tableSum (mergeCounts t c) = tableSum t + tableSum c := by
  induction c with
  | nil => intro t; simp [mergeCounts, tableSum]
  | cons p rest ih =>
    intro t
    obtain ⟨a, n⟩ := p
    have hstep : mergeCounts t ((a, n) :: rest) = mergeCounts (bump t a n) rest := rfl
    have hsum : tableSum ((a, n) :: rest) = n + tableSum rest := by simp [tableSum]
    rw [hstep, ih, tableSum_bump, hsum]
    omega

/-! ### Lemmas about the aggregation loop -/

/-- The results that carry no error (the ones whose counts and line
totals the aggregator keeps). -/
def okResults (rs : List WorkerResult) : List WorkerResult :=
  rs.filter (fun r => r.error.isNone)

theorem aggLoop_errors (rs : List WorkerResult) :
    ∀ acc : AggState,
      (rs.foldl aggStep acc).errors = acc.errors ++ rs.filterMap (fun r => r.error) := by
  induction rs with
  | nil => intro acc; simp
  | cons r rest ih =>
    intro acc
    cases hr : r.error with
    | none => simp [aggStep, hr, ih]
    | some e => simp [aggStep, hr, ih]

theorem aggLoop_totalLines (rs : List WorkerResult) :
    ∀ acc : AggState,
      (rs.foldl aggStep acc).totalLines
        = acc.totalLines + ((okResults rs).map (fun r => r.lines)).sum := by
  induction rs with
  | nil => intro acc; simp [okResults]
  | cons r rest ih =>
    intro acc
    cases hr : r.error with
    | none =>
      simp [aggStep, hr, ih, okResults]
      omega
    | some e => simp [aggStep, hr, ih, okResults]

theorem aggLoop_lookup (rs : List WorkerResult) (k : String) :
    ∀ acc : AggState,
      lookupCount (rs.foldl aggStep acc).table k
        = lookupCount acc.table k
          + ((okResults rs).map (fun r => entryWeight r.counts k)).sum := by
  induction rs with
  | nil => intro acc; simp [okResults]
  | cons r rest ih =>
    intro acc
    cases hr : r.error with
    | none =>
      simp [aggStep, hr, ih, okResults, lookupCount_mergeCounts]
      omega
    | some e => simp [aggStep, hr, ih, okResults]

theorem aggLoop_keys_mem (rs : List WorkerResult) (k : String) :
    ∀ acc : AggState,
      (k ∈ keysOf (rs.foldl aggStep acc).table
        ↔ k ∈ keysOf acc.table ∨ ∃ r ∈ okResults rs, k ∈ keysOf r.counts) := by
  induction rs with
  | nil => intro acc; simp [okResults]
  | cons r rest ih =>
    intro acc
    cases hr : r.error with
    | none =>
      have hok : okResults (r :: rest) = r :: okResults rest := by
        simp [okResults, hr]
      rw [hok]
      have hstep : (r :: rest).foldl aggStep acc = rest.foldl aggStep (aggStep acc r) := rfl
      rw [hstep, ih, aggStep]
      rw [hr]
      simp only [mem_keysOf_mergeCounts, List.mem_cons]
      constructor
      · rintro ((h1 | h2) | ⟨r', hr', hk⟩)
        · exact Or.inl h1
        · exact Or.inr ⟨r, Or.inl rfl, h2⟩
        · exact Or.inr ⟨r', Or.inr hr', hk⟩
      · rintro (h1 | ⟨r', hr' | hr', hk⟩)
        · exact Or.inl (Or.inl h1)
        · subst hr'; exact Or.inl (Or.inr hk)
        · exact Or.inr ⟨r', hr', hk⟩
    | some e =>
      have hok : okResults (r :: rest) = okResults rest := by
        simp [okResults, hr]
      have hstep : (r :: rest).foldl aggStep acc = rest.foldl aggStep (aggStep acc r) := rfl
      rw [hok, hstep, ih, aggStep, hr]

theorem aggLoop_keys_nodup (rs : List WorkerResult) :
    ∀ acc : AggState, (keysOf acc.table).Nodup
      → (keysOf (rs.foldl aggStep acc).table).Nodup := by
  induction rs with
  | nil => intro acc h; exact h
  | cons r rest ih =>
    intro acc h
    cases hr : r.error with
    | none =>
      refine ih _ ?_
      rw [aggStep, hr]
      exact nodup_keysOf_mergeCounts r.counts acc.table h
    | some e =>
      refine ih _ ?_
      rw [aggStep, hr]
      exact h

theorem aggLoop_tableSum (rs : List WorkerResult) :
    ∀ acc : AggState,
      tableSum (rs.foldl aggStep acc).table
        = tableSum acc.table + ((okResults rs).map (fun r => tableSum r.counts)).sum := by
  induction rs with
  | nil => intro acc; simp [okResults]
  | cons r rest ih =>
    intro acc
    cases hr : r.error with
    | none =>
      simp [aggStep, hr, ih, okResults, tableSum_mergeCounts]
      omega
    | some e => simp [aggStep, hr, ih, okResults]

theorem aggregate_tableSum (rs : List WorkerResult)
    (h : ∀ r ∈ rs, r.error = none → tableSum r.counts = r.lines) :
    tableSum (aggregate rs).table = (aggregate rs).totalLines := by
  unfold aggregate
  rw [aggLoop_tableSum, aggLoop_totalLines]
  have : (okResults rs).map (fun r => tableSum r.counts)
      = (okResults rs).map (fun r => r.lines) := by
    refine List.map_congr_left ?_
    intro r hr
    rw [okResults, List.mem_filter] at hr
    exact h r hr.1 (Option.isNone_iff_eq_none.mp hr.2)
  rw [this]
  simp [tableSum]

/-! ### A count map with duplicate-free keys is determined, up to entry
order, by its key set and its lookup function -/

theorem mem_countMap_iff (m : CountMap) (h : (keysOf m).Nodup) (p : String × Int) :
    p ∈ m ↔ p.1 ∈ keysOf m ∧ lookupCount m p.1 = p.2 := by
  induction m with
  | nil => simp [keysOf, lookupCount]
  | cons q rest ih =>
    obtain ⟨a, c⟩ := q
    have hcons : keysOf ((a, c) :: rest) = a :: keysOf rest := rfl
    rw [hcons, List.nodup_cons] at h
    constructor
    · intro hp
      rcases List.mem_cons.mp hp with hp1 | hp2
      · subst hp1
        simp [hcons, lookupCount]
      · have := (ih h.2).mp hp2
        have hne : ¬a = p.1 := by
          intro hap
          exact h.1 (hap ▸ this.1)
        refine ⟨by rw [hcons]; exact List.mem_cons_of_mem a this.1, ?_⟩
        rw [lookupCount, if_neg hne]
        exact this.2
    · rintro ⟨hk, hv⟩
      rw [hcons, List.mem_cons] at hk
      by_cases hap : a = p.1
      · rw [lookupCount, if_pos hap] at hv
        have : p = (a, c) := by
          obtain ⟨p1, p2⟩ := p
          simp at hap hv ⊢
          exact ⟨hap.symm, hv.symm⟩
        rw [this]
        exact List.mem_cons_self _ _
      · rcases hk with hk1 | hk2
        · exact absurd hk1.symm hap
        · rw [lookupCount, if_neg hap] at hv
          exact List.mem_cons_of_mem _ ((ih h.2).mpr ⟨hk2, hv⟩)

theorem countMap_perm (m1 m2 : CountMap)
    (h1 : (keysOf m1).Nodup) (h2 : (keysOf m2).Nodup)
    (hmem : ∀ k, k ∈ keysOf m1 ↔ k ∈ keysOf m2)
    (hlook : ∀ k, lookupCount m1 k = lookupCount m2 k) : m1.Perm m2 := by
  have hn1 : m1.Nodup := List.Nodup.of_map Prod.fst h1
  have hn2 : m2.Nodup := List.Nodup.of_map Prod.fst h2
  refine List.perm_of_nodup_nodup_toFinset_eq hn1 hn2 ?_
  ext p
  simp only [List.mem_toFinset]
  rw [mem_countMap_iff m1 h1 p, mem_countMap_iff m2 h2 p, hmem, hlook]

/-! ### The ranking comparator is a total order, so sorting is
canonical -/

theorem charListLe_trans {a : List Char} : ∀ {b c : List Char},
    charListLe a b = true → charListLe b c = true → charListLe a c = true := by
  induction a with
  | nil => intro b c _ _; rfl
  | cons x as ih =>
    intro b c hab hbc
    cases b with
    | nil => exact absurd hab (by simp [charListLe])
    | cons y bs =>
      cases c with
      | nil => exact absurd hbc (by simp [charListLe])
      | cons z cs =>
        rw [charListLe] at hab hbc ⊢
        rcases lt_trichotomy x y with hxy | hxy | hxy
        · rcases lt_trichotomy y z with hyz | hyz | hyz
          · rw [if_pos (hxy.trans hyz)]
          · subst hyz
            rw [if_pos hxy]
          · rw [if_neg (lt_asymm hyz), if_pos hyz] at hbc
            exact absurd hbc (by simp)
        · subst hxy
          rcases lt_trichotomy x z with hxz | hxz | hxz
          · rw [if_pos hxz]
          · subst hxz
            rw [if_neg (lt_irrefl x), if_neg (lt_irrefl x)] at hab hbc ⊢
            exact ih hab hbc
          · rw [if_neg (lt_asymm hxz), if_pos hxz] at hbc
            exact absurd hbc (by simp)
        · rw [if_neg (lt_asymm hxy), if_pos hxy] at hab
          exact absurd hab (by simp)

theorem charListLe_total : ∀ (a b : List Char),
    charListLe a b = true ∨ charListLe b a = true := by
  intro a
  induction a with
  | nil => intro b; exact Or.inl rfl
  | cons x as ih =>
    intro b
    cases b with
    | nil => exact Or.inr rfl
    | cons y bs =>
      rcases lt_trichotomy x y with h | h | h
      · left
        simp [charListLe, h]
      · subst h
        rcases ih bs with h2 | h2
        · left
          simp [charListLe, lt_irrefl, h2]
        · right
          simp [charListLe, lt_irrefl, h2]
      · right
        simp [charListLe, h]

theorem charListLe_antisymm : ∀ {a b : List Char},
    charListLe a b = true → charListLe b a = true → a = b := by
  intro a
  induction a with
  | nil =>
    intro b hab hba
    cases b with
    | nil => rfl
    | cons y bs => exact absurd hba (by simp [charListLe])
  | cons x as ih =>
    intro b hab hba
    cases b with
    | nil => exact absurd hab (by simp [charListLe])
    | cons y bs =>
      rcases lt_trichotomy x y with h | h | h
      · rw [charListLe, if_neg (lt_asymm h), if_pos h] at hba
        exact absurd hba (by simp)
      · subst h
        rw [charListLe, if_neg (lt_irrefl x), if_neg (lt_irrefl x)] at hab hba
        rw [ih hab hba]
      · rw [charListLe, if_neg (lt_asymm h), if_pos h] at hab
        exact absurd hab (by simp)

instance : IsTrans LabelCount rankLE := by
  constructor
  intro a b c hab hbc
  rcases hab with h1 | ⟨h1, h1l⟩ <;> rcases hbc with h2 | ⟨h2, h2l⟩
  · exact Or.inl (h2.trans h1)
  · exact Or.inl (by omega)
  · exact Or.inl (by omega)
  · exact Or.inr ⟨h1.trans h2, charListLe_trans h1l h2l⟩

instance : IsTotal LabelCount rankLE := by
  constructor
  intro a b
  rcases lt_trichotomy a.count b.count with h | h | h
  · exact Or.inr (Or.inl h)
  · rcases charListLe_total a.label.toList b.label.toList with hl | hl
    · exact Or.inl (Or.inr ⟨h, hl⟩)
    · exact Or.inr (Or.inr ⟨h.symm, hl⟩)
  · exact Or.inl (Or.inl h)

instance : IsAntisymm LabelCount rankLE := by
  constructor
  intro a b hab hba
  rcases hab with h1 | ⟨h1, h1l⟩
  · rcases hba with h2 | ⟨h2, h2l⟩
    · exact absurd h1 (by omega)
    · exact absurd h1 (by omega)
  · rcases hba with h2 | ⟨h2, h2l⟩
    · exact absurd h2 (by omega)
    · have hl : a.label = b.label := String.toList_inj.mp (charListLe_antisymm h1l h2l)
      obtain ⟨la, ca⟩ := a
      obtain ⟨lb, cb⟩ := b
      simp only [LabelCount.mk.injEq]
      exact ⟨hl, h1⟩

theorem sortTable_sorted (t : CountMap) : List.Sorted rankLE (sortTable t) :=
  List.sorted_insertionSort rankLE _

theorem sortTable_congr (t1 t2 : CountMap) (h : t1.Perm t2) :
    sortTable t1 = sortTable t2 := by
  refine List.eq_of_perm_of_sorted ?_ (sortTable_sorted t1) (sortTable_sorted t2)
  exact ((List.perm_insertionSort rankLE _).trans
    (h.map _)).trans (List.perm_insertionSort rankLE _).symm

/-! ### Claim theorems -/

/-- C1 counterexample: a file whose scan yields the value `cat` twice
(K = 2) and then fails.  `processFile` does return the partial counts
and line total, and the error entry references the file; but the
aggregation loop (the `continue` at source line 360) discards the
partial counts and lines, so — contrary to the claim — nothing of that
file is merged into the final table or `totalLines`: the count of
`cat` ends at `0`, not `2`. -/
theorem c1_counterexample :
    (processFile (fun l => l) "f.jsonl"
        (FileData.content ["cat", "cat"] (some "unexpected EOF"))).counts = [("cat", 2)] ∧
    (processFile (fun l => l) "f.jsonl"
        (FileData.content ["cat", "cat"] (some "unexpected EOF"))).lines = 2 ∧
    (aggregate [processFile (fun l => l) "f.jsonl"
        (FileData.content ["cat", "cat"] (some "unexpected EOF"))]).errors
      = ["读取文件失败[f.jsonl]: unexpected EOF"] ∧
    lookupCount (aggregate [processFile (fun l => l) "f.jsonl"
        (FileData.content ["cat", "cat"] (some "unexpected EOF"))]).table "cat" = 0 ∧
    (aggregate [processFile (fun l => l) "f.jsonl"
        (FileData.content ["cat", "cat"] (some "unexpected EOF"))]).totalLines = 0 ∧
    (0 : Int) ≠ 2 := by
  refine ⟨rfl, rfl, rfl, rfl, rfl, by decide⟩

/-- C1 (amended): for every file whose scan fails partway through, the
final report contains one error entry referencing that file, and the
counts and line total accumulated from that file before the failure are
DISCARDED from the final table and `totalLines` — the whole file
contributes only its error entry.  Formally: an errored `WorkerResult`
changes only the error list of the aggregation, and the read-failure
error produced by `processFile` names the file path. -/
theorem c1_theorem :
    (∀ (rs : List WorkerResult) (r : WorkerResult) (e : String), r.error = some e →
      aggregate (rs ++ [r])
        = { table := (aggregate rs).table
            totalLines := (aggregate rs).totalLines
            errors := (aggregate rs).errors ++ [e] }) ∧
    (∀ (ext : String → String) (path m : String) (ls : List String),
      (processFile ext path (FileData.content ls (some m))).error
        = some ("读取文件失败[" ++ path ++ "]: " ++ m)) := by
  constructor
  · intro rs r e he
    unfold aggregate
    rw [List.foldl_append]
    show aggStep _ r = _
    rw [aggStep, he]
  · intro ext path m ls
    rfl

/-- C1 witness: instantiating the amended claim on one errored result
with non-trivial partial counts. -/
theorem c1_witness :
    aggregate [WorkerResult.mk [("cat", 2)] 2 (some "boom")]
      = { table := [], totalLines := 0, errors := ["boom"] } :=
  c1_theorem.1 [] ⟨[("cat", 2)], 2, some "boom"⟩ "boom" rfl

/-- C2 counterexample: with the configured key `category` and a line
that contains that key, the fast variant returns `""` (absent) even
though the value `x` is present at the key — because `fastExtractLabel`
searches for the fixed literal pattern `"label":`, not for the
configured key; the spec's algorithm applied with the configured key
(`specFastExtract`) returns `x`. -/
theorem c2_counterexample :
    extractLine true (fun _ => none) "category" "\x7b\"category\": \"x\"\x7d" = "" ∧
    specFastExtract "category" "\x7b\"category\": \"x\"\x7d" = "x" ∧
    ("" : String) ≠ "x" := by
  refine ⟨rfl, rfl, by decide⟩

/-- C2 (amended): the full-parse variant looks up the configured key,
but the fast variant ignores it: for every line and every configured
key, fast extraction equals the spec's scanning algorithm applied with
the FIXED key `label`. -/
theorem c2_theorem (parse : String → Option (List (String × JsonValue)))
    (labelKey line : String) :
    extractLine true parse labelKey line = specFastExtract "label" line := by
  show fastExtractLabel line = specFastExtract "label" line
  unfold fastExtractLabel specFastExtract
  have hpat : ("\"label\":".toList : List Char) = dq :: ("label".toList ++ [dq, ':']) := by
    decide
  rw [hpat]

/-- C3: aggregation is order-independent.  For every two arrival (or
dispatch) orders of the same multiset of `WorkerResult`s, the final
tables are permutations of each other with identical per-key counts,
`totalLines` agrees, and the ranked lists are literally equal. -/
theorem c3_theorem (rs1 rs2 : List WorkerResult) (hp : rs1.Perm rs2) :
    (aggregate rs1).table.Perm (aggregate rs2).table ∧
    (∀ k, lookupCount (aggregate rs1).table k = lookupCount (aggregate rs2).table k) ∧
    (aggregate rs1).totalLines = (aggregate rs2).totalLines ∧
    sortTable (aggregate rs1).table = sortTable (aggregate rs2).table := by
  have hok : (okResults rs1).Perm (okResults rs2) := hp.filter _
  have hlook : ∀ k,
      lookupCount (aggregate rs1).table k = lookupCount (aggregate rs2).table k := by
    intro k
    unfold aggregate
    rw [aggLoop_lookup rs1 k, aggLoop_lookup rs2 k]
    rw [(hok.map (fun r => entryWeight r.counts k)).sum_eq]
  have hkeys : ∀ k,
      (k ∈ keysOf (aggregate rs1).table ↔ k ∈ keysOf (aggregate rs2).table) := by
    intro k
    unfold aggregate
    rw [aggLoop_keys_mem rs1 k, aggLoop_keys_mem rs2 k]
    constructor
    · rintro (h | ⟨r, hr, hk⟩)
      · exact Or.inl h
      · exact Or.inr ⟨r, hok.mem_iff.mp hr, hk⟩
    · rintro (h | ⟨r, hr, hk⟩)
      · exact Or.inl h
      · exact Or.inr ⟨r, hok.mem_iff.mpr hr, hk⟩
  have hperm : (aggregate rs1).table.Perm (aggregate rs2).table := by
    refine countMap_perm _ _ ?_ ?_ hkeys hlook
    · exact aggLoop_keys_nodup rs1 ⟨[], 0, []⟩ (by simp [keysOf])
    · exact aggLoop_keys_nodup rs2 ⟨[], 0, []⟩ (by simp [keysOf])
  refine ⟨hperm, hlook, ?_, sortTable_congr _ _ hperm⟩
  unfold aggregate
  rw [aggLoop_totalLines rs1, aggLoop_totalLines rs2]
  rw [(hok.map (fun r => r.lines)).sum_eq]

/-- C3 witness: instantiating order-independence on two concrete
arrival orders of the same two results. -/
theorem c3_witness :
    sortTable (aggregate
        [(⟨[("a", 1)], 1, none⟩ : WorkerResult), ⟨[("b", 2)], 2, none⟩]).table
      = sortTable (aggregate
        [(⟨[("b", 2)], 2, none⟩ : WorkerResult), ⟨[("a", 1)], 1, none⟩]).table :=
  (c3_theorem [⟨[("a", 1)], 1, none⟩, ⟨[("b", 2)], 2, none⟩]
    [⟨[("b", 2)], 2, none⟩, ⟨[("a", 1)], 1, none⟩] (by decide)).2.2.2

/-- C4: the Ranker sorts the table entries by count descending, with
equal counts ordered by label ascending in plain lexicographic order
(`rankLE`); the table `b ↦ 3, a ↦ 3` ranks as `[(a,3), (b,3)]`; and the
ranking is a deterministic function of the table alone — any two entry
orders of the same table (Go map iteration orders) sort to the same
ranked list. -/
theorem c4_theorem :
    (∀ t : CountMap, List.Sorted rankLE (sortTable t)) ∧
    sortTable [("b", 3), ("a", 3)] = [⟨"a", 3⟩, ⟨"b", 3⟩] ∧
    (∀ t1 t2 : CountMap, t1.Perm t2 → sortTable t1 = sortTable t2) :=
  ⟨sortTable_sorted, by decide, sortTable_congr⟩

/-- C4 witness: instantiating ranking determinism on two iteration
orders of one concrete table. -/
theorem c4_witness :
    sortTable [("a", 2), ("b", 5)] = sortTable [("b", 5), ("a", 2)] :=
  c4_theorem.2.2 [("a", 2), ("b", 5)] [("b", 5), ("a", 2)] (by decide)

theorem keysOf_scanLines_mem (ext : String → String) (ls : List String) (k : String) :
    k ∈ keysOf (scanLines ext ls).1 ↔ k ∈ (ls.filter (countedLine ext)).map ext := by
  have h0 : ¬k ∈ keysOf (([], 0) : CountMap × Int).1 := by simp [keysOf]
  exact (scanLoop_keys_mem ext ls k ([], 0)).trans (or_iff_right h0)

/-- Run-level uniqueness: over error-free files, the aggregated table
has exactly one entry per distinct counted value of the whole run. -/
theorem aggregate_content_uniq (ext : String → String) (paths : List String)
    (lsOf : String → List String) :
    (aggregate (paths.map fun p =>
        processFile ext p (FileData.content (lsOf p) none))).table.length
      = ((paths.map fun p =>
        ((lsOf p).filter (countedLine ext)).map ext).flatten).toFinset.card := by
  unfold aggregate
  have hfil : okResults (paths.map fun p =>
      processFile ext p (FileData.content (lsOf p) none))
      = paths.map fun p => processFile ext p (FileData.content (lsOf p) none) := by
    rw [okResults]
    refine List.filter_eq_self.mpr ?_
    intro r hr
    rw [List.mem_map] at hr
    obtain ⟨p, _, hpr⟩ := hr
    rw [← hpr]
    rfl
  have hnodup : (keysOf ((paths.map fun p =>
      processFile ext p (FileData.content (lsOf p) none)).foldl
        aggStep ⟨[], 0, []⟩).table).Nodup :=
    aggLoop_keys_nodup _ ⟨[], 0, []⟩ (by simp [keysOf])
  have hlen : ((paths.map fun p =>
      processFile ext p (FileData.content (lsOf p) none)).foldl
        aggStep ⟨[], 0, []⟩).table.length
      = (keysOf ((paths.map fun p =>
        processFile ext p (FileData.content (lsOf p) none)).foldl
          aggStep ⟨[], 0, []⟩).table).length := by
    simp [keysOf]
  rw [hlen, ← List.toFinset_card_of_nodup hnodup]
  congr 1
  refine Finset.ext fun k => ?_
  simp only [List.mem_toFinset]
  have h0 : ¬k ∈ keysOf (⟨[], 0, []⟩ : AggState).table := by simp [keysOf]
  rw [(aggLoop_keys_mem _ k ⟨[], 0, []⟩).trans (or_iff_right h0), hfil]
  constructor
  · rintro ⟨r, hr, hk⟩
    rw [List.mem_map] at hr
    obtain ⟨p, hp, hpr⟩ := hr
    rw [← hpr] at hk
    have hk' : k ∈ ((lsOf p).filter (countedLine ext)).map ext :=
      (keysOf_scanLines_mem ext (lsOf p) k).mp hk
    exact List.mem_flatten.mpr
      ⟨((lsOf p).filter (countedLine ext)).map ext,
        List.mem_map_of_mem _ hp, hk'⟩
  · intro hk
    obtain ⟨l, hl, hkl⟩ := List.mem_flatten.mp hk
    rw [List.mem_map] at hl
    obtain ⟨p, hp, hpl⟩ := hl
    refine ⟨processFile ext p (FileData.content (lsOf p) none),
      List.mem_map_of_mem _ hp, ?_⟩
    refine (keysOf_scanLines_mem ext (lsOf p) k).mpr ?_
    rw [hpl]
    exact hkl

/-- C5: the per-file line counter is incremented exactly on lines where
the extractor yields a non-empty value: (1) a blank line, or one whose
extracted value is empty (which covers a missing key — both extractors
return `""` then), changes nothing; (2) the per-file line count equals
the number of counted lines; (3) the number of per-file table entries
equals the number of distinct counted values of that file; (4) with no
read errors, the global `totalLines` is the sum over files of their
counted-line numbers; (5) at run level, in every `Result` returned over
error-free files, `uniqueLabels` equals the number of distinct counted
values across the whole run. -/
theorem c5_theorem :
    (∀ (ext : String → String) (m : CountMap) (n : Int) (line : String),
      line = "" ∨ ext line = "" → scanStep ext (m, n) line = (m, n)) ∧
    (∀ (ext : String → String) (ls : List String),
      (scanLines ext ls).2 = ((ls.filter (countedLine ext)).length : Int)) ∧
    (∀ (ext : String → String) (ls : List String),
      (scanLines ext ls).1.length = ((ls.filter (countedLine ext)).map ext).toFinset.card) ∧
    (∀ (ext : String → String) (paths : List String) (lsOf : String → List String),
      (aggregate (paths.map fun p =>
          processFile ext p (FileData.content (lsOf p) none))).totalLines
        = (paths.map fun p => (((lsOf p).filter (countedLine ext)).length : Int)).sum) ∧
    (∀ (ext : String → String) (lsOf : String → List String)
        (directory : String) (evs : List WalkEvent) (res : Result),
      countLabels ext (fun p => FileData.content (lsOf p) none) directory evs
          = Except.ok res →
      res.uniqueLabels
        = (((collectJSONLFiles evs).1.map fun p =>
          ((lsOf p).filter (countedLine ext)).map ext).flatten).toFinset.card) := by
  refine ⟨?_, ?_, ?_, ?_, ?_⟩
  · intro ext m n line h
    rcases h with h | h
    · simp [scanStep, h]
    · by_cases hl : line = "" <;> simp [scanStep, hl, h]
  · intro ext ls
    unfold scanLines
    rw [scanLoop_snd]
    simp
  · intro ext ls
    have hnodup : (keysOf (scanLines ext ls).1).Nodup :=
      scanLoop_keys_nodup ext ls ([], 0) (by simp [keysOf])
    have hlen : (scanLines ext ls).1.length = (keysOf (scanLines ext ls).1).length := by
      simp [keysOf]
    rw [hlen, ← List.toFinset_card_of_nodup hnodup]
    congr 1
    refine Finset.ext fun k => ?_
    simp only [List.mem_toFinset]
    have h0 : ¬k ∈ keysOf (([], 0) : CountMap × Int).1 := by simp [keysOf]
    exact (scanLoop_keys_mem ext ls k ([], 0)).trans (or_iff_right h0)
  · intro ext paths lsOf
    unfold aggregate
    rw [aggLoop_totalLines]
    have hfil : okResults (paths.map fun p =>
        processFile ext p (FileData.content (lsOf p) none))
        = paths.map fun p => processFile ext p (FileData.content (lsOf p) none) := by
      rw [okResults]
      refine List.filter_eq_self.mpr ?_
      intro r hr
      rw [List.mem_map] at hr
      obtain ⟨p, _, hpr⟩ := hr
      rw [← hpr]
      rfl
    rw [hfil, List.map_map]
    have hmap : ((fun r : WorkerResult => r.lines) ∘ fun p =>
        processFile ext p (FileData.content (lsOf p) none))
        = fun p => (((lsOf p).filter (countedLine ext)).length : Int) := by
      funext p
      show (scanLines ext (lsOf p)).2 = _
      unfold scanLines
      rw [scanLoop_snd]
      simp
    rw [hmap]
    simp
  · intro ext lsOf directory evs res h
    unfold countLabels at h
    cases h2 : (collectJSONLFiles evs).2 with
    | some e =>
      rw [h2] at h
      exact absurd h (by simp)
    | none =>
      rw [h2] at h
      by_cases hf : (collectJSONLFiles evs).1 = []
      · simp [hf] at h
      · simp only [hf, if_false, Except.ok.injEq] at h
        subst h
        exact aggregate_content_uniq ext (collectJSONLFiles evs).1 lsOf

/-- C5 witness: instantiating the skip clause on a line whose extracted
value is empty. -/
theorem c5_witness :
    scanStep (fun _ => "") ([("a", 1)], 1) "x" = ([("a", 1)], 1) :=
  c5_theorem.1 (fun _ => "") [("a", 1)] 1 "x" (Or.inr rfl)

/-- C6: under the full-parse strategy, a line that fails to parse as
JSON is skipped: it changes neither the counts nor the line total of
the scan (first clause), and the error of a processed file is exactly
the read error of the scanner — line contents never produce an error
entry (second clause). -/
theorem c6_theorem :
    (∀ (parse : String → Option (List (String × JsonValue))) (k line : String)
        (acc : CountMap × Int), parse line = none →
      scanStep (extractLine false parse k) acc line = acc) ∧
    (∀ (parse : String → Option (List (String × JsonValue))) (k path : String)
        (ls : List String) (readErr : Option String),
      (processFile (extractLine false parse k) path (FileData.content ls readErr)).error
        = readErr.map (fun m => "读取文件失败[" ++ path ++ "]: " ++ m)) := by
  constructor
  · intro parse k line acc hline
    by_cases hl : line = ""
    · simp [scanStep, hl]
    · simp [scanStep, hl, extractLine, fullExtractLabel, hline]
  · intro parse k path ls readErr
    rfl

/-- C6 witness: instantiating the skip clause on the spec's unterminated
JSON example with a parse function that rejects it. -/
theorem c6_witness :
    scanStep (extractLine false (fun _ => none) "label") ([], 0) "\x7b\"label\": \"x\"" = ([], 0) :=
  c6_theorem.1 (fun _ => none) "label" "\x7b\"label\": \"x\"" ([], 0) rfl

/-- C8: the run returns a result iff the directory walk succeeded AND it
found at least one file with a matching extension; equivalently, it
aborts exactly on a walk failure or on an empty file list.  The file
contents (`fileData`) are universally quantified on both sides, so
per-file open or read failures can never make the run abort. -/
theorem c8_theorem (ext : String → String) (fileData : String → FileData)
    (directory : String) (evs : List WalkEvent) :
    (∃ r, countLabels ext fileData directory evs = Except.ok r)
      ↔ ((collectJSONLFiles evs).2 = none ∧ (collectJSONLFiles evs).1 ≠ []) := by
  unfold countLabels
  cases h2 : (collectJSONLFiles evs).2 with
  | some e => simp [h2]
  | none =>
    by_cases hf : (collectJSONLFiles evs).1 = [] <;> simp [h2, hf]

/-- C9: in every returned `Result`, the sum of all counts in the
frequency table equals `TotalLines` — counts and line totals are kept
or dropped together per file, so the invariant survives per-file
errors. -/
theorem c9_theorem (ext : String → String) (fileData : String → FileData)
    (directory : String) (evs : List WalkEvent) (res : Result)
    (h : countLabels ext fileData directory evs = Except.ok res) :
    tableSum res.labelCounts = res.totalLines := by
  unfold countLabels at h
  cases h2 : (collectJSONLFiles evs).2 with
  | some e =>
    rw [h2] at h
    exact absurd h (by simp)
  | none =>
    rw [h2] at h
    by_cases hf : (collectJSONLFiles evs).1 = []
    · simp [hf] at h
    · simp only [hf, if_false, Except.ok.injEq] at h
      subst h
      show tableSum (aggregate ((collectJSONLFiles evs).1.map
          fun f => processFile ext f (fileData f))).table
        = (aggregate ((collectJSONLFiles evs).1.map
          fun f => processFile ext f (fileData f))).totalLines
      refine aggregate_tableSum _ ?_
      intro r hr herr
      rw [List.mem_map] at hr
      obtain ⟨p, _, hpr⟩ := hr
      rw [← hpr] at herr ⊢
      cases hfd : fileData p with
      | openFail msg =>
        exact absurd herr (by simp [processFile, hfd])
      | content ls rerr =>
        show tableSum (scanLines ext ls).1 = (scanLines ext ls).2
        exact tableSum_scanLines ext ls

/-- C9 witness: instantiating the invariant on a concrete successful
run with two distinct values over three lines. -/
theorem c9_witness :
    tableSum (Result.mk "d" 1 3 2 [("cat", 2), ("dog", 1)]
        [⟨"cat", 2⟩, ⟨"dog", 1⟩] []).labelCounts
      = (Result.mk "d" 1 3 2 [("cat", 2), ("dog", 1)]
        [⟨"cat", 2⟩, ⟨"dog", 1⟩] []).totalLines :=
  c9_theorem (fun l => l) (fun _ => FileData.content ["cat", "cat", "dog"] none) "d"
    [WalkEvent.entry "d/a.jsonl" "a.jsonl" false]
    ⟨"d", 1, 3, 2, [("cat", 2), ("dog", 1)], [⟨"cat", 2⟩, ⟨"dog", 1⟩], []⟩ rfl

/-- C10: in every returned `Result`, `FilesProcessed` equals the number
of files the directory walk discovered, however many of them later
failed to open or read. -/
theorem c10_theorem (ext : String → String) (fileData : String → FileData)
    (directory : String) (evs : List WalkEvent) (res : Result)
    (h : countLabels ext fileData directory evs = Except.ok res) :
    res.filesProcessed = (collectJSONLFiles evs).1.length := by
  unfold countLabels at h
  cases h2 : (collectJSONLFiles evs).2 with
  | some e =>
    rw [h2] at h
    exact absurd h (by simp)
  | none =>
    rw [h2] at h
    by_cases hf : (collectJSONLFiles evs).1 = []
    · simp [hf] at h
    · simp only [hf, if_false, Except.ok.injEq] at h
      subst h
      rfl

/-- C10 witness: instantiating the invariant on a run whose two
discovered files both fail to open — `filesProcessed` is still `2`. -/
theorem c10_witness :
    (Result.mk "d" 2 0 0 [] [] ["打开文件失败: denied", "打开文件失败: denied"]).filesProcessed
      = (collectJSONLFiles [WalkEvent.entry "d/a.json" "a.json" false,
          WalkEvent.entry "d/b.json" "b.json" false]).1.length :=
  c10_theorem (fun l => l) (fun _ => FileData.openFail "denied") "d"
    [WalkEvent.entry "d/a.json" "a.json" false, WalkEvent.entry "d/b.json" "b.json" false]
    ⟨"d", 2, 0, 0, [], [], ["打开文件失败: denied", "打开文件失败: denied"]⟩ rfl
